import Mathlib

/-!
Shallow embedding of `src/export/pdf.rs` (PDF export core) and proofs about it.

Conventions of the embedding:
* Rust `f32`/`f64` lengths (`Length`, `Em`, point coordinates) are modelled as `ℚ`;
  every arithmetic operation the relevant code performs on them is exact
  (additions, subtractions, multiplication by constants), so `ℚ` is faithful.
* Rust `i32` reference ids are modelled as `Int` (the relevant counts stay far
  below `2^31`, and the claims are settled on concrete small inputs).
* `HashMap`/`HashSet` are modelled as association lists / predicates; `BTreeMap`
  is modelled as a sorted association list with replace-on-equal-key insertion.
* Fallible collaborator calls are modelled with `Option`; a Rust panic
  (`HashMap` indexing) is modelled as `Option.none`.
-/

set_option linter.unusedVariables false

namespace Pdf

/-- `crate::color::RgbaColor` (payload of `Color::Rgba`): four `u8` channels. -/
structure RgbaColor where
  r : Nat
  g : Nat
  b : Nat
  a : Nat
deriving DecidableEq

/-- `crate::color::Color`. -/
inductive Color where
  | rgba (c : RgbaColor)
deriving DecidableEq

/-- `crate::layout::Paint`: the single variant `Paint::Color`. -/
inductive Paint where
  | color (c : Color)
deriving DecidableEq

/-- A point in layout space (`Length` coordinates, stored in pt). -/
structure Point where
  x : ℚ
  y : ℚ
deriving DecidableEq

/-- `crate::geom::Size { w, h }` (lengths in pt). -/
structure Size where
  w : ℚ
  h : ℚ
deriving DecidableEq

/-- `crate::geom::Em`: a length in ems. -/
abbrev Em := ℚ

/-- `EmExt::to_pdf`: convert an em length to PDF font units (`1000.0 * self.get()`). -/
def Em.to_pdf (e : Em) : ℚ := 1000 * e

/-- One glyph of a `Text` element: glyph id (`u16`), intended horizontal advance
and horizontal kerning offset (both in ems). -/
structure Glyph where
  id : Nat
  x_advance : Em
  x_offset : Em

/-- The payload of `Element::Text`: face id, font size, fill paint and glyphs. -/
structure TextElem where
  face_id : Nat
  size : ℚ
  fill : Paint
  glyphs : List Glyph

/-- `crate::geom::PathElement`. -/
inductive PathElement where
  | moveTo (p : Point)
  | lineTo (p : Point)
  | cubicTo (p1 p2 p3 : Point)
  | closePath

/-- `crate::geom::Path` (a vector of path elements). -/
structure Path where
  elems : List PathElement

/-- `crate::layout::Geometry`. -/
inductive Geometry where
  | rect (s : Size)
  | ellipse (s : Size)
  | line (target : Point) (thickness : ℚ)
  | path (p : Path)

/-- `crate::layout::Element`: the tagged element variants of a frame. -/
inductive Element where
  | text (t : TextElem)
  | geometry (g : Geometry) (paint : Paint)
  | image (id : Nat) (s : Size)
  | link (href : List Nat) (s : Size)

/-- `crate::layout::Frame`: page size plus positioned elements, in order. -/
structure Frame where
  size : Size
  elements : List (Point × Element)

/-- One operator of a `pdf_writer::Content` stream, as emitted by `write_page`
and its helpers.  The `TJ` (`show_positioned`) items are flattened into
individual `showStr`/`adjust` operators in emission order. -/
inductive Op where
  | beginText
  | endText
  | setFillRgb (r g b : ℚ)
  | setStrokeRgb (r g b : ℚ)
  | setLineWidth (w : ℚ)
  | setFont (name : Nat) (size : ℚ)
  | setTextMatrix (a b c d e f : ℚ)
  | showStr (bytes : List Nat)
  | adjust (amount : ℚ)
  | rectOp (x y w h : ℚ)
  | fillNonzero
  | moveTo (x y : ℚ)
  | lineTo (x y : ℚ)
  | cubicTo (x1 y1 x2 y2 x3 y3 : ℚ)
  | closePath
  | strokeOp
  | saveState
  | restoreState
  | concatMatrix (a b c d e f : ℚ)
  | xObject (name : Nat)
deriving DecidableEq

/-- The face data `write_page` consults: `FontStore::get(face_id).advance(glyph_id)`,
the font-native advance of a glyph in ems. -/
structure Face where
  advance : Nat → Option Em

/-- `image::ImageFormat` restricted to the formats the exporter loads. -/
inductive ImageFormat where
  | png
  | jpeg
deriving DecidableEq

/-- `image::DynamicImage` buffer variants (pixel data abstracted away). -/
inductive DynamicImage where
  | luma8
  | lumaA8
  | rgb8
  | rgba8
  | bgr8
  | bgra8
deriving DecidableEq

/-- `ColorType::has_alpha()` of the buffer's color type. -/
def DynamicImage.has_alpha : DynamicImage → Bool
  | .luma8 => false
  | .lumaA8 => true
  | .rgb8 => false
  | .rgba8 => true
  | .bgr8 => false
  | .bgra8 => true

/-- `crate::image::Image`: source format and decoded buffer.
`jpeg_write_fails` models fallibility of the external collaborator call
`img.buf.write_to(..)` (an `ImageResult`) used by the two JPEG passthrough
arms of `encode_image`; the actual bytes are abstracted away. -/
structure Image where
  format : ImageFormat
  buf : DynamicImage
  jpeg_write_fails : Bool

/-- `pdf_writer::Filter` values used by the exporter. -/
inductive Filter where
  | dctDecode
  | flateDecode
deriving DecidableEq

/-- `pdf_writer::types::ColorSpace` values used by the exporter. -/
inductive ColorSpace where
  | deviceGray
  | deviceRgb
deriving DecidableEq

/-- `encode_image`: choose a filter and color space for an image, `none` on
`ImageResult` error.  The encoded bytes are abstracted away; only the match
structure (which arm fires, and whether it can fail) is kept. -/
def encode_image (img : Image) : Option (Filter × ColorSpace) :=
  match img.format, img.buf with
  | .jpeg, .luma8 =>
    if img.jpeg_write_fails then none else some (.dctDecode, .deviceGray)
  | .jpeg, .rgb8 =>
    if img.jpeg_write_fails then none else some (.dctDecode, .deviceRgb)
  | .png, .luma8 => some (.flateDecode, .deviceGray)
  | _, _ => some (.flateDecode, .deviceRgb)

/-- The environment `write_page` reads: the font store, the image store, the two
remappers' `map` functions, and the external `geom::Path::ellipse` constructor.
`font_map`/`image_map` are total here because `write_page` is only reached after
the collection pass has inserted every used id (the panicking behaviour of
`Remapper::map` on unknown ids is modelled separately on the `Remapper` type). -/
structure Env where
  faces : Nat → Face
  images : Nat → Image
  font_map : Nat → Nat
  image_map : Nat → Nat
  ellipse : Size → Path

/-- The mutable state `write_page` tracks across one frame. -/
structure PageState where
  face_id : Option Nat
  size : ℚ
  fill : Option Paint
  in_text_state : Bool

/-- `write_fill`: emit a fill-color operator for a paint. -/
def write_fill (fill : Paint) : Op :=
  match fill with
  | .color (.rgba c) =>
    .setFillRgb ((c.r : ℚ) / 255) ((c.g : ℚ) / 255) ((c.b : ℚ) / 255)

/-- `write_stroke`: emit stroke-color and line-width operators. -/
def write_stroke (stroke : Paint) (thickness : ℚ) : List Op :=
  match stroke with
  | .color (.rgba c) =>
    [.setStrokeRgb ((c.r : ℚ) / 255) ((c.g : ℚ) / 255) ((c.b : ℚ) / 255),
     .setLineWidth thickness]

/-- `write_path`: emit a path's segments relative to `(x, y)` and fill it. -/
def write_path (x y : ℚ) (path : Path) : List Op :=
  (path.elems.map fun elem =>
    match elem with
    | .moveTo p => Op.moveTo (x + p.x) (y + p.y)
    | .lineTo p => Op.lineTo (x + p.x) (y + p.y)
    | .cubicTo p1 p2 p3 =>
      Op.cubicTo (x + p1.x) (y + p1.y) (x + p2.x) (y + p2.y) (x + p3.x) (y + p3.y)
    | .closePath => Op.closePath)
  ++ [Op.fillNonzero]

/-- The two big-endian bytes of a glyph id
(`(glyph.id >> 8) as u8`, `(glyph.id & 0xff) as u8`). -/
def glyphBytes (glyph : Glyph) : List Nat := [glyph.id / 256 % 256, glyph.id % 256]

/-- The adjustment left pending after one glyph: add the difference between the
glyph's intended advance and its font-native advance (when the face knows the
glyph), then subtract the glyph's offset again. -/
def glyphAdvanceAdj (face : Face) (glyph : Glyph) (adjustment : Em) : Em :=
  (match face.advance glyph.id with
   | some advance => adjustment + (glyph.x_advance - advance)
   | none => adjustment) - glyph.x_offset

/-- The glyph loop of the `Element::Text` arm of `write_page`: carries the
pending `adjustment` (ems) and the buffered `encoded` glyph bytes, flushes the
buffer before any non-zero positioning adjustment, and flushes a final pending
buffer (but not a pending adjustment) after the last glyph. -/
def glyphOps (face : Face) : List Glyph → Em → List Nat → List Op
  | [], _, encoded => if encoded = [] then [] else [Op.showStr encoded]
  | glyph :: rest, adjustment, encoded =>
    let adjustment := adjustment + glyph.x_offset
    if adjustment = 0 then
      glyphOps face rest (glyphAdvanceAdj face glyph adjustment) (encoded ++ glyphBytes glyph)
    else
      (if encoded = [] then [] else [Op.showStr encoded])
        ++ [Op.adjust (-(Em.to_pdf adjustment))]
        ++ glyphOps face rest (glyphAdvanceAdj face glyph 0) (glyphBytes glyph)

/-- Operators of the `Element::Text` arm: conditional fill-color change,
conditional font switch, text matrix, then the glyph run. -/
def textOpsList (env : Env) (st : PageState) (x y : ℚ) (text : TextElem) : List Op :=
  (if st.fill ≠ some text.fill then [write_fill text.fill] else [])
  ++ (if st.face_id ≠ some text.face_id ∨ text.size ≠ st.size then
        [Op.setFont (env.font_map text.face_id) text.size]
      else [])
  ++ [Op.setTextMatrix 1 0 0 1 x y]
  ++ glyphOps (env.faces text.face_id) text.glyphs 0 []

/-- State update of the `Element::Text` arm (fill and font tracking, two
independent conditional assignments exactly as in the source). -/
def textStateAfter (st : PageState) (text : TextElem) : PageState :=
  let st := if st.fill ≠ some text.fill then { st with fill := some text.fill } else st
  if st.face_id ≠ some text.face_id ∨ text.size ≠ st.size then
    { st with face_id := some text.face_id, size := text.size }
  else st

/-- Operators of the `Element::Geometry` arm: a save/restore bracket around the
shape-specific painting operators. -/
def geometryOps (env : Env) (x y : ℚ) (geometry : Geometry) (paint : Paint) : List Op :=
  [Op.saveState]
  ++ (match geometry with
      | .rect ⟨w, h⟩ =>
        if w > 0 ∧ h > 0 then
          [write_fill paint, Op.rectOp x (y - h) w h, Op.fillNonzero]
        else []
      | .ellipse s => write_fill paint :: write_path x y (env.ellipse s)
      | .line target thickness =>
        write_stroke paint thickness
          ++ [Op.moveTo x y, Op.lineTo (x + target.x) (y - target.y), Op.strokeOp]
      | .path p => write_fill paint :: write_path x y p)
  ++ [Op.restoreState]

/-- Operators of the `Element::Image` arm. -/
def imageOps (env : Env) (x y : ℚ) (id : Nat) (s : Size) : List Op :=
  [Op.saveState,
   Op.concatMatrix s.w 0 0 s.h x (y - s.h),
   Op.xObject (env.image_map id),
   Op.restoreState]

/-- One iteration of the element loop of `write_page`: the text/graphics-mode
fixup followed by the element's own operators, with the page-space conversion
`y = pageH - pos.y`. -/
def writePageStep (env : Env) (pageH : ℚ) (st : PageState) (pe : Point × Element) :
    PageState × List Op :=
  let pos := pe.1
  let element := pe.2
  let (st, preOps) :=
    match element with
    | .text _ =>
      if !st.in_text_state then ({ st with in_text_state := true }, [Op.beginText])
      else (st, [])
    | .geometry _ _ =>
      if st.in_text_state then ({ st with in_text_state := false }, [Op.endText])
      else (st, [])
    | .image _ _ =>
      if st.in_text_state then ({ st with in_text_state := false }, [Op.endText])
      else (st, [])
    | .link _ _ => (st, [])
  let x := pos.x
  let y := pageH - pos.y
  match element with
  | .text t => (textStateAfter st t, preOps ++ textOpsList env st x y t)
  | .geometry g paint => (st, preOps ++ geometryOps env x y g paint)
  | .image id s => (st, preOps ++ imageOps env x y id s)
  | .link _ _ => (st, preOps)

/-- The element loop of `write_page`, closing a still-open text mode at the end. -/
def pageOps (env : Env) (pageH : ℚ) : PageState → List (Point × Element) → List Op
  | st, [] => if st.in_text_state then [Op.endText] else []
  | st, pe :: rest =>
    let (st', ops) := writePageStep env pageH st pe
    ops ++ pageOps env pageH st' rest

/-- `write_page`: content-stream operators for one frame, starting from the
initial state (no active face, zero size, no active fill, not in text mode). -/
def write_page (env : Env) (frame : Frame) : List Op :=
  pageOps env frame.size.h ⟨none, 0, none, false⟩ frame.elements

/-- The half-open integer range `[a, b)` as a list (a Rust `a .. b` iterator). -/
def intRange (a b : Int) : List Int :=
  (List.range (b - a).toNat).map fun k => a + (k : Int)

/-- Rust `Iterator::step_by(n)` on a list: keep every `n`-th element
(`skip` counts how many elements remain to be skipped before the next keep). -/
def stepByAux (n : Nat) : List Int → Nat → List Int
  | [], _ => []
  | x :: rest, 0 => x :: stepByAux n rest (n - 1)
  | _ :: rest, skip + 1 => stepByAux n rest skip

/-- Rust `Iterator::step_by(n)` on a list. -/
def stepBy (n : Nat) (l : List Int) : List Int := stepByAux n l 0

/-- `Refs`: the precomputed indirect-reference numbering scheme. -/
structure Refs where
  catalog : Int
  page_tree : Int
  pages_start : Int
  contents_start : Int
  fonts_start : Int
  images_start : Int
  alpha_masks_start : Int
  end_ : Int
deriving DecidableEq

/-- The five consecutive ids of one font group. -/
structure FontRefs where
  type0_font : Int
  cid_font : Int
  font_descriptor : Int
  cmap : Int
  data : Int
deriving DecidableEq

/-- `Refs::OBJECTS_PER_FONT`. -/
def OBJECTS_PER_FONT : Nat := 5

/-- `Refs::new(pages, fonts, images, alpha_masks)`. -/
def Refs.new (pages fonts images alpha_masks : Nat) : Refs :=
  let catalog : Int := 1
  let page_tree := catalog + 1
  let pages_start := page_tree + 1
  let contents_start := pages_start + (pages : Int)
  let fonts_start := contents_start + (pages : Int)
  let images_start := fonts_start + ((OBJECTS_PER_FONT * fonts : Nat) : Int)
  let alpha_masks_start := images_start + (images : Int)
  let end_ := alpha_masks_start + (alpha_masks : Int)
  ⟨catalog, page_tree, pages_start, contents_start, fonts_start, images_start,
   alpha_masks_start, end_⟩

/-- `Refs::pages()`: `pages_start .. contents_start`. -/
def Refs.pages (r : Refs) : List Int := intRange r.pages_start r.contents_start

/-- `Refs::contents()`: `contents_start .. images_start` (exactly as in the
source; note that the upper bound is `images_start`, not `fonts_start`). -/
def Refs.contents (r : Refs) : List Int := intRange r.contents_start r.images_start

/-- `Refs::fonts()`: `(fonts_start .. images_start).step_by(5)`, each start id
expanded into a five-object group. -/
def Refs.fonts (r : Refs) : List FontRefs :=
  (stepBy OBJECTS_PER_FONT (intRange r.fonts_start r.images_start)).map fun id =>
    ⟨id, id + 1, id + 2, id + 3, id + 4⟩

/-- `Refs::images()`: `images_start .. end` (exactly as in the source; note that
the upper bound is `end`, not `alpha_masks_start`). -/
def Refs.images (r : Refs) : List Int := intRange r.images_start r.end_

/-- `Refs::alpha_mask(i)`. -/
def Refs.alpha_mask (r : Refs) (i : Nat) : Int := r.alpha_masks_start + (i : Int)

/-- All ids of the font band, flattened in order. -/
def Refs.fontIds (r : Refs) : List Int :=
  (r.fonts).flatMap fun fr => [fr.type0_font, fr.cid_font, fr.font_descriptor, fr.cmap, fr.data]

/-- First-match association-list lookup (models `HashMap` lookup; keys are
unique in every map the exporter builds). -/
def alookup {α : Type} [DecidableEq α] : List (α × Nat) → α → Option Nat
  | [], _ => none
  | (k, v) :: rest, a => if a = k then some v else alookup rest a

/-- `Remapper`: forward map to dense pdf indices plus the reverse sequence. -/
structure Remapper (α : Type) where
  to_pdf : List (α × Nat)
  to_layout : List α

/-- `Remapper::new()`. -/
def Remapper.new {α : Type} : Remapper α := ⟨[], []⟩

/-- `Remapper::len()`. -/
def Remapper.len {α : Type} (r : Remapper α) : Nat := r.to_layout.length

/-- `Remapper::insert(index)`: `to_pdf.entry(index).or_insert_with(..)` — a
no-op when the id is already mapped, otherwise record the next dense index and
push the id onto the reverse sequence. -/
def Remapper.insert {α : Type} [DecidableEq α] (r : Remapper α) (index : α) : Remapper α :=
  match alookup r.to_pdf index with
  | some _ => r
  | none => ⟨r.to_pdf ++ [(index, r.to_layout.length)], r.to_layout ++ [index]⟩

/-- `Remapper::map(index)`: `self.to_pdf[&index]` — the `HashMap` index
operator panics when the key is absent, modelled as `none`. -/
def Remapper.map {α : Type} [DecidableEq α] (r : Remapper α) (index : α) : Option Nat :=
  alookup r.to_pdf index

/-- `Remapper::pdf_indices()`: `0 .. to_pdf.len()`. -/
def Remapper.pdf_indices {α : Type} (r : Remapper α) : List Nat :=
  List.range r.to_pdf.length

/-- `Remapper::layout_indices()`. -/
def Remapper.layout_indices {α : Type} (r : Remapper α) : List α := r.to_layout

/-- Fold a sequence of `insert` calls over a fresh remapper. -/
def buildRemapper {α : Type} [DecidableEq α] (l : List α) : Remapper α :=
  l.foldl Remapper.insert Remapper.new

/-- Insertion-order deduplication, generalized over the already-kept prefix. -/
def firstSeenFrom {α : Type} [DecidableEq α] (acc : List α) : List α → List α
  | [] => acc
  | x :: rest => firstSeenFrom (if x ∈ acc then acc else acc ++ [x]) rest

/-- Insertion-order deduplication of a sequence (first occurrences, in order). -/
def firstSeen {α : Type} [DecidableEq α] (l : List α) : List α := firstSeenFrom [] l

/-- The state built by the collection pass of `PdfExporter::new`: the per-face
glyph usage (as a flat list of `(face_id, glyph_id)` pairs — the source's
`HashMap<FaceId, HashSet<u16>>` up to set semantics), the two remappers, and
the alpha-mask count. -/
structure ExporterInit where
  glyphs : List (Nat × Nat)
  font_map : Remapper Nat
  image_map : Remapper Nat
  alpha_masks : Nat

/-- One element visit of the collection pass of `PdfExporter::new`:
`images id` models `ctx.images.get(id)`, and the alpha test is
`img.buf.color().has_alpha()`. -/
def collectElement (images : Nat → Image) (st : ExporterInit) :
    Element → ExporterInit
  | .text t =>
    { st with
      font_map := st.font_map.insert t.face_id,
      glyphs := st.glyphs ++ t.glyphs.map fun g => (t.face_id, g.id) }
  | .geometry _ _ => st
  | .image id _ =>
    let img := images id
    { st with
      alpha_masks := if img.buf.has_alpha then st.alpha_masks + 1 else st.alpha_masks,
      image_map := st.image_map.insert id }
  | .link _ _ => st

/-- The collection pass of `PdfExporter::new` over all frames, in frame order
then element order. -/
def exporterInit (images : Nat → Image) (frames : List Frame) : ExporterInit :=
  frames.foldl
    (fun st frame => frame.elements.foldl (fun st pe => collectElement images st pe.2) st)
    ⟨[], Remapper.new, Remapper.new, 0⟩

/-- The `Refs` the constructed exporter carries:
`Refs::new(frames.len(), font_map.len(), image_map.len(), alpha_masks)`. -/
def exporterRefs (images : Nat → Image) (frames : List Frame) : Refs :=
  let st := exporterInit images frames
  Refs.new frames.length st.font_map.len st.image_map.len st.alpha_masks

/-- An indirect object written by `write_images`: a primary image (with its
optional soft-mask reference), a grayscale alpha mask, or the zero-dimension
placeholder written when no encoding strategy succeeds. -/
inductive PdfObject where
  | imageObj (id : Int) (smask : Option Int)
  | maskObj (id : Int)
  | placeholder (id : Int)
deriving DecidableEq

/-- The loop body of `write_images`, carrying `masks_seen` over the zipped
`(object id, image id)` pairs. -/
def writeImagesLoop (images : Nat → Image) (refs : Refs) :
    Nat → List (Int × Nat) → List PdfObject
  | _, [] => []
  | masks_seen, (id, image_id) :: rest =>
    let img := images image_id
    match encode_image img with
    | some _ =>
      if img.buf.has_alpha then
        let mask_id := refs.alpha_mask masks_seen
        PdfObject.imageObj id (some mask_id) :: PdfObject.maskObj mask_id
          :: writeImagesLoop images refs (masks_seen + 1) rest
      else
        PdfObject.imageObj id none :: writeImagesLoop images refs masks_seen rest
    | none => PdfObject.placeholder id :: writeImagesLoop images refs masks_seen rest

/-- `write_images`: iterate `refs.images().zip(image_map.layout_indices())`
(the zip truncates to the shorter side, exactly as Rust's `zip` does). -/
def write_images (images : Nat → Image) (refs : Refs) (image_map : Remapper Nat) :
    List PdfObject :=
  writeImagesLoop images refs 0 ((refs.images).zip image_map.layout_indices)

/-- Count the emitted mask objects. -/
def countMasks (objs : List PdfObject) : Nat :=
  objs.countP fun o => match o with | .maskObj _ => true | _ => false

/-- One `cmap` character-mapping subtable of the face, as `write_fonts` sees
it: its `is_unicode()` flag and the codepoints its `codepoints(..)` visitor
enumerates, in enumeration order. -/
structure Subtable where
  is_unicode : Bool
  codepoints : List Nat
/-- The parts of the parsed font program (`ttf_parser::Face`) that the
reverse-codepoint-map block of `write_fonts` consults. -/
structure TtfFace where
  subtables : List Subtable
  glyph_index : Nat → Option Nat

/-- `std::char::from_u32`: valid Unicode scalar values only. -/
def charFromU32 (n : Nat) : Option Nat :=
  if n < 0xD800 ∨ (0xDFFF < n ∧ n < 0x110000) then some n else none

/-- `BTreeMap::insert` on a key-sorted association list: replaces the value on
an equal key, keeps keys in increasing order. -/
def btreeInsert (g c : Nat) : List (Nat × Nat) → List (Nat × Nat)
  | [] => [(g, c)]
  | (g', c') :: rest =>
    if g < g' then (g, c) :: (g', c') :: rest
    else if g = g' then (g, c) :: rest
    else (g', c') :: btreeInsert g c rest

/-- The body of the `subtable.codepoints(|n| ..)` closure in `write_fonts`:
decode the codepoint, look up its glyph, and record the pair when the glyph is
in the usage set. -/
def insertHit (face : TtfFace) (glyphs : Nat → Bool) (mapping : List (Nat × Nat))
    (n : Nat) : List (Nat × Nat) :=
  match charFromU32 n with
  | some c =>
    match face.glyph_index c with
    | some g => if glyphs g then btreeInsert g c mapping else mapping
    | none => mapping
  | none => mapping

/-- One subtable visit of the reverse-codepoint-map loop: walk the codepoints
only when the subtable is a Unicode one. -/
def subtableFold (face : TtfFace) (glyphs : Nat → Bool) (mapping : List (Nat × Nat))
    (st : Subtable) : List (Nat × Nat) :=
  if st.is_unicode then st.codepoints.foldl (insertHit face glyphs) mapping else mapping

/-- The reverse glyph-to-codepoint mapping built by `write_fonts` for one face
(the `BTreeMap` it feeds pairwise into the `/ToUnicode` `UnicodeCmap`, iterated
in increasing glyph-id order). -/
def mappingOfFace (face : TtfFace) (glyphs : Nat → Bool) : List (Nat × Nat) :=
  face.subtables.foldl (subtableFold face glyphs) []

/-- The hit that a single enumerated codepoint contributes, if any. -/
def hitOf (face : TtfFace) (glyphs : Nat → Bool) (n : Nat) : Option (Nat × Nat) :=
  match charFromU32 n with
  | some c =>
    match face.glyph_index c with
    | some g => if glyphs g then some (g, c) else none
    | none => none
  | none => none

/-- All `(glyph, codepoint)` hits of the walk, flattened in visit order. -/
def cmapHits (face : TtfFace) (glyphs : Nat → Bool) : List (Nat × Nat) :=
  ((face.subtables.filter (·.is_unicode)).map
    fun st => st.codepoints.filterMap (hitOf face glyphs)).flatten

/-- The codepoint of the last hit for glyph `g` in a hit sequence. -/
def lastFor (g : Nat) : List (Nat × Nat) → Option Nat
  | [] => none
  | (k, v) :: t =>
    match lastFor g t with
    | some c => some c
    | none => if k = g then some v else none

/-- The key sequence of an association list. -/
def keysOf (m : List (Nat × Nat)) : List Nat := m.map Prod.fst

/-- The PDF graphics state affected by the operators the exporter emits:
fill color, stroke color, line width, and the save/restore stack. -/
structure GState where
  fill : ℚ × ℚ × ℚ
  stroke : ℚ × ℚ × ℚ
  lineWidth : ℚ
  stack : List ((ℚ × ℚ × ℚ) × (ℚ × ℚ × ℚ) × ℚ)
deriving DecidableEq

/-- Interpret one operator's effect on the graphics state (`q`/`Q` push and pop
the saved parameters; painting and text operators leave them unchanged). -/
def applyOp (s : GState) : Op → GState
  | .setFillRgb r g b => { s with fill := (r, g, b) }
  | .setStrokeRgb r g b => { s with stroke := (r, g, b) }
  | .setLineWidth w => { s with lineWidth := w }
  | .saveState => { s with stack := (s.fill, s.stroke, s.lineWidth) :: s.stack }
  | .restoreState =>
    match s.stack with
    | [] => s
    | (f, st, lw) :: rest => ⟨f, st, lw, rest⟩
  | _ => s

/-- Run a list of operators over a graphics state. -/
def runOps (s : GState) (ops : List Op) : GState := ops.foldl applyOp s

/-- Painting operators: everything the `Geometry` and `Image` arms emit that may
not legally appear between `BT` and `ET` (fill-color changes are excluded — the
`Text` arm emits those inside text mode). -/
def isPaint : Op → Bool
  | .rectOp _ _ _ _ => true
  | .fillNonzero => true
  | .moveTo _ _ => true
  | .lineTo _ _ => true
  | .cubicTo _ _ _ _ _ _ => true
  | .closePath => true
  | .strokeOp => true
  | .setStrokeRgb _ _ _ => true
  | .setLineWidth _ => true
  | .saveState => true
  | .restoreState => true
  | .concatMatrix _ _ _ _ _ _ => true
  | .xObject _ => true
  | _ => false

/-- Text-mode discipline of an operator stream, scanned with the current
text-mode flag: `BT` only when closed, `ET` only when open, painting operators
only when closed, and text mode closed at the end of the stream. -/
def discipline (b : Bool) : List Op → Bool
  | [] => !b
  | op :: rest =>
    if op = Op.beginText then !b && discipline true rest
    else if op = Op.endText then b && discipline false rest
    else (!(isPaint op && b)) && discipline b rest

/-- Count the font-select operators of a stream. -/
def countSetFont (ops : List Op) : Nat :=
  ops.countP fun op => match op with | .setFont _ _ => true | _ => false

/-- Number of positions where the `(face, size)` pair differs from its
predecessor, the active pair `cur` preceding the list. -/
def countChanges : (Nat × ℚ) → List (Nat × ℚ) → Nat
  | _, [] => 0
  | cur, p :: rest => (if p = cur then 0 else 1) + countChanges p rest

/-- Number of maximal runs of identical `(face, size)` pairs. -/
def countRuns : List (Nat × ℚ) → Nat
  | [] => 0
  | p :: rest => 1 + countChanges p rest

/-- The adjustment operators of a stream. -/
def adjustOps (ops : List Op) : List Op :=
  ops.filter fun op => match op with | .adjust _ => true | _ => false

/-- The show-string operators of a stream. -/
def showOps (ops : List Op) : List Op :=
  ops.filter fun op => match op with | .showStr _ => true | _ => false

/-- The text-matrix operators of a stream. -/
def textMatrixOps (ops : List Op) : List Op :=
  ops.filter fun op => match op with | .setTextMatrix _ _ _ _ _ _ => true | _ => false

/-- The font-select operators of a stream. -/
def setFontOps (ops : List Op) : List Op :=
  ops.filter fun op => match op with | .setFont _ _ => true | _ => false

/-- A trivial environment (used for concrete evaluations). -/
def env0 : Env :=
  ⟨fun _ => ⟨fun _ => none⟩, fun _ => ⟨.png, .luma8, false⟩, fun _ => 0, fun _ => 0,
   fun _ => ⟨[]⟩⟩

/-- An image store where every image is an RGBA PNG (has an alpha channel). -/
def imagesC2 : Nat → Image := fun _ => ⟨.png, .rgba8, false⟩

/-- One frame placing the same image resource twice. -/
def framesC2 : List Frame :=
  [⟨⟨10, 10⟩, [(⟨0, 0⟩, .image 0 ⟨5, 5⟩), (⟨1, 1⟩, .image 0 ⟨5, 5⟩)]⟩]

/-- The face of the end-to-end scenario: font-native advances of 600 and 550
PDF units (0.6 em and 0.55 em) for glyphs 5 and 6. -/
def faceC3 : Face :=
  ⟨fun g =>
    if g = 5 then some ((600 : ℚ) / 1000)
    else if g = 6 then some ((550 : ℚ) / 1000)
    else none⟩

/-- Environment for the end-to-end scenario, generic in the font remapping. -/
def envC3 (fm : Nat → Nat) : Env :=
  ⟨fun _ => faceC3, fun _ => ⟨.png, .luma8, false⟩, fm, fun _ => 0, fun _ => ⟨[]⟩⟩

/-- The scenario frame: page 200×100, a single text element at `(10, 20)` with
glyphs 5 and 6, intended advances of 600 PDF units each, zero offsets; the font
size and fill color are left generic. -/
def frameC3 (s : ℚ) (c : RgbaColor) : Frame :=
  ⟨⟨200, 100⟩,
   [(⟨10, 20⟩,
     .text ⟨0, s, .color (.rgba c),
            [⟨5, (600 : ℚ) / 1000, 0⟩, ⟨6, (600 : ℚ) / 1000, 0⟩]⟩)]⟩

/-- A face with one Unicode subtable enumerating codepoints 65 then 66, both
mapped to glyph 7. -/
def faceC4 : TtfFace :=
  ⟨[⟨true, [65, 66]⟩], fun c => if c = 65 ∨ c = 66 then some 7 else none⟩

/-- Glyph-usage set `{7}`. -/
def glyphsC4 : Nat → Bool := fun g => g == 7

/-- Invariant of every reachable `Remapper`: the forward map has one entry per
reverse-sequence slot, maps the `k`-th reverse entry to `k`, and is defined on
exactly the ids of the reverse sequence. -/
def RemInv {α : Type} [DecidableEq α] (r : Remapper α) : Prop :=
  r.to_pdf.length = r.to_layout.length
  ∧ (∀ k (hk : k < r.to_layout.length), alookup r.to_pdf (r.to_layout.get ⟨k, hk⟩) = some k)
  ∧ (∀ a, (alookup r.to_pdf a).isSome = true ↔ a ∈ r.to_layout)

/-- Insert one `(glyph, codepoint)` hit into a sorted mapping. -/
def insPair (m : List (Nat × Nat)) (gc : Nat × Nat) : List (Nat × Nat) :=
  btreeInsert gc.1 gc.2 m

/-! ## Theorems -/

theorem alookup_append {α : Type} [DecidableEq α] (l1 l2 : List (α × Nat)) (a : α) :
    alookup (l1 ++ l2) a =
      match alookup l1 a with
      | some v => some v
      | none => alookup l2 a := by
  induction l1 with
  | nil => simp [alookup]
  | cons kv rest ih =>
    obtain ⟨k, v⟩ := kv
    by_cases h : a = k <;> simp [alookup, h, ih]

theorem remInv_new {α : Type} [DecidableEq α] : RemInv (Remapper.new : Remapper α) := by
  refine ⟨rfl, ?_, ?_⟩
  · intro k hk; simp [Remapper.new] at hk
  · intro a; simp [Remapper.new, alookup]

theorem remInv_insert {α : Type} [DecidableEq α] (r : Remapper α) (x : α)
    (h : RemInv r) : RemInv (r.insert x) := by
  obtain ⟨hlen, hget, hmem⟩ := h
  unfold Remapper.insert
  cases hx : alookup r.to_pdf x with
  | some v => exact ⟨hlen, hget, hmem⟩
  | none =>
    refine ⟨?_, ?_, ?_⟩
    · simp [hlen]
    · intro k hk
      have hkb : k < r.to_layout.length + 1 := by
        have := hk; simp only [List.length_append, List.length_cons, List.length_nil] at this
        omega
      rcases Nat.lt_or_ge k r.to_layout.length with hlt | hge
      · have hg : (r.to_layout ++ [x]).get ⟨k, hk⟩ = r.to_layout.get ⟨k, hlt⟩ := by
          simp [List.get_eq_getElem, List.getElem_append_left hlt]
        rw [hg, alookup_append, hget k hlt]
      · have hkeq : k = r.to_layout.length := by omega
        subst hkeq
        have hg : (r.to_layout ++ [x]).get ⟨r.to_layout.length, hk⟩ = x := by
          simp [List.get_eq_getElem, List.getElem_concat_length]
        rw [hg, alookup_append, hx]
        simp [alookup]
    · intro a
      rw [alookup_append]
      by_cases hax : a = x
      · subst hax
        simp [hx, alookup]
      · cases ha : alookup r.to_pdf a with
        | some v =>
          have : a ∈ r.to_layout := (hmem a).1 (by simp [ha])
          simp [this, ha]
        | none =>
          have : a ∉ r.to_layout := fun hc => by
            have := (hmem a).2 hc; simp [ha] at this
          simp [ha, alookup, hax, this]

theorem build_layout {α : Type} [DecidableEq α] (l : List α) (r : Remapper α)
    (h : RemInv r) :
    (l.foldl Remapper.insert r).to_layout = firstSeenFrom r.to_layout l
    ∧ RemInv (l.foldl Remapper.insert r) := by
  induction l generalizing r with
  | nil => exact ⟨rfl, h⟩
  | cons x rest ih =>
    have hinv' := remInv_insert r x h
    have step : (r.insert x).to_layout = if x ∈ r.to_layout then r.to_layout else r.to_layout ++ [x] := by
      unfold Remapper.insert
      cases hx : alookup r.to_pdf x with
      | some v =>
        have : x ∈ r.to_layout := (h.2.2 x).1 (by simp [hx])
        simp [this]
      | none =>
        have : x ∉ r.to_layout := fun hc => by
          have := (h.2.2 x).2 hc; simp [hx] at this
        simp [this]
    have := ih (r.insert x) hinv'
    refine ⟨?_, this.2⟩
    rw [List.foldl_cons, this.1, firstSeenFrom, step]

theorem mem_firstSeenFrom {α : Type} [DecidableEq α] (l : List α) (acc : List α) (a : α) :
    a ∈ firstSeenFrom acc l ↔ a ∈ acc ∨ a ∈ l := by
  induction l generalizing acc with
  | nil => simp [firstSeenFrom]
  | cons x rest ih =>
    rw [firstSeenFrom, ih]
    by_cases hx : x ∈ acc
    · simp only [if_pos hx, List.mem_cons]
      constructor
      · rintro (h | h)
        · exact Or.inl h
        · exact Or.inr (Or.inr h)
      · rintro (h | h | h)
        · exact Or.inl h
        · exact Or.inl (h ▸ hx)
        · exact Or.inr h
    · simp only [if_neg hx, List.mem_append, List.mem_singleton, List.mem_cons]
      tauto

/-- Claim C5: Remapper bijection and idempotence — for every sequence of
insertions, `map` sends the `k`-th element of the insertion-order-deduplicated
sequence to `k`, the reverse sequence is exactly that deduplicated sequence,
the dense indices are exactly `0..count`, and re-inserting an already-seen
identifier leaves the remapper unchanged. -/
theorem c5_remapper_bijection {α : Type} [DecidableEq α] (l : List α) :
    (buildRemapper l).to_layout = firstSeen l
    ∧ (∀ k (hk : k < (firstSeen l).length),
        (buildRemapper l).map ((firstSeen l).get ⟨k, hk⟩) = some k)
    ∧ (buildRemapper l).pdf_indices = List.range (firstSeen l).length
    ∧ (∀ x ∈ l, (buildRemapper l).insert x = buildRemapper l) := by
  have h : (buildRemapper l).to_layout = firstSeen l ∧ RemInv (buildRemapper l) :=
    build_layout l Remapper.new remInv_new
  have hlay := h.1
  obtain ⟨hlen, hget, hmem⟩ := h.2
  refine ⟨hlay, ?_, ?_, ?_⟩
  · intro k hk
    have hge := List.get_of_eq hlay.symm ⟨k, hk⟩
    rw [Remapper.map, hge]
    exact hget k _
  · rw [Remapper.pdf_indices, hlen, hlay]
  · intro x hx
    have hxl : x ∈ (buildRemapper l).to_layout := by
      rw [hlay, firstSeen]
      exact (mem_firstSeenFrom l [] x).2 (Or.inr hx)
    have hsome := (hmem x).2 hxl
    cases hc : alookup (buildRemapper l).to_pdf x with
    | some v => simp [Remapper.insert, hc]
    | none => rw [hc] at hsome; simp at hsome

/-- Witness for C5 at the insertion sequence `[3, 1, 3, 2]`. -/
theorem c5_remapper_bijection_witness :
    (buildRemapper [3, 1, 3, 2]).to_layout = firstSeen [3, 1, 3, 2]
    ∧ 1 < (firstSeen [3, 1, 3, 2]).length
    ∧ (buildRemapper [3, 1, 3, 2]).map ((firstSeen [3, 1, 3, 2]).get ⟨1, by decide⟩) = some 1
    ∧ (buildRemapper [3, 1, 3, 2]).pdf_indices = List.range (firstSeen [3, 1, 3, 2]).length
    ∧ (3 ∈ [3, 1, 3, 2])
    ∧ (buildRemapper [3, 1, 3, 2]).insert 3 = buildRemapper [3, 1, 3, 2] :=
  ⟨(c5_remapper_bijection [3, 1, 3, 2]).1,
   by decide,
   (c5_remapper_bijection [3, 1, 3, 2]).2.1 1 (by decide),
   (c5_remapper_bijection [3, 1, 3, 2]).2.2.1,
   by decide,
   (c5_remapper_bijection [3, 1, 3, 2]).2.2.2 3 (by decide)⟩

/-- Claim C6: `Remapper::map` on an identifier never inserted does not return a
dense index — `self.to_pdf[&index]` panics on a missing key, modelled as
`none`. -/
theorem c6_map_unknown_none {α : Type} [DecidableEq α] (l : List α) (x : α)
    (hx : x ∉ l) : (buildRemapper l).map x = none := by
  have h : (buildRemapper l).to_layout = firstSeen l ∧ RemInv (buildRemapper l) :=
    build_layout l Remapper.new remInv_new
  obtain ⟨hlen, hget, hmem⟩ := h.2
  cases hc : alookup (buildRemapper l).to_pdf x with
  | none => exact hc
  | some v =>
    have hxl : x ∈ (buildRemapper l).to_layout := (hmem x).1 (by simp [hc])
    rw [h.1, firstSeen] at hxl
    have := (mem_firstSeenFrom l [] x).1 hxl
    simp at this
    exact absurd this hx

/-- Witness for C6: id `5` was never inserted into `buildRemapper [1, 2]`. -/
theorem c6_map_unknown_none_witness :
    (5 ∉ [1, 2]) ∧ (buildRemapper [1, 2]).map 5 = none :=
  ⟨by decide, c6_map_unknown_none [1, 2] 5 (by decide)⟩

/-- Claim C1 (evaluation of the code at the failing input): at
`(pageCount, fontCount, imageCount, alphaMaskCount) = (1, 1, 0, 0)` the
exposed `contents` band iterator yields ids 4..9 while the single font group
occupies ids 5..9 — the bands share id 5 (indeed 5..9), so the band iterators
are not pairwise disjoint and the contents band does not have one id per page. -/
theorem c1_refs_bands_overlap :
    Refs.pages (Refs.new 1 1 0 0) = [3]
    ∧ Refs.contents (Refs.new 1 1 0 0) = [4, 5, 6, 7, 8, 9]
    ∧ Refs.fontIds (Refs.new 1 1 0 0) = [5, 6, 7, 8, 9]
    ∧ (5 : Int) ∈ Refs.contents (Refs.new 1 1 0 0)
    ∧ (5 : Int) ∈ Refs.fontIds (Refs.new 1 1 0 0)
    ∧ (Refs.new 1 1 0 0).end_ = 10 := by decide

/-- Claim C2 (evaluation of the code at the failing input): one frame using the
same alpha image twice.  The used-image set contains exactly one image with an
alpha channel and the image writer emits exactly one mask object, but the
collection pass counts one alpha-mask slot per element occurrence and allocates
a band of two slots (ids 6 and 7), of which id 7 is never written. -/
theorem c2_alpha_mask_overcount :
    (exporterInit imagesC2 framesC2).alpha_masks = 2
    ∧ ((exporterInit imagesC2 framesC2).image_map.layout_indices.filter
        (fun id => (imagesC2 id).buf.has_alpha)).length = 1
    ∧ write_images imagesC2 (exporterRefs imagesC2 framesC2)
        (exporterInit imagesC2 framesC2).image_map
      = [PdfObject.imageObj 5 (some 6), PdfObject.maskObj 6]
    ∧ countMasks (write_images imagesC2 (exporterRefs imagesC2 framesC2)
        (exporterInit imagesC2 framesC2).image_map) = 1
    ∧ (exporterRefs imagesC2 framesC2).alpha_masks_start = 6
    ∧ (exporterRefs imagesC2 framesC2).end_ = 8 := by decide

/-- Evaluation of the end-to-end scenario's content stream. -/
theorem c3_eval (fm : Nat → Nat) (s : ℚ) (c : RgbaColor) :
    write_page (envC3 fm) (frameC3 s c) =
      [Op.beginText,
       Op.setFillRgb ((c.r : ℚ) / 255) ((c.g : ℚ) / 255) ((c.b : ℚ) / 255),
       Op.setFont (fm 0) s,
       Op.setTextMatrix 1 0 0 1 10 80,
       Op.showStr [0, 5, 0, 6],
       Op.endText] := by
  simp only [write_page, frameC3, envC3, faceC3, pageOps, writePageStep, textOpsList,
    textStateAfter, glyphOps, write_fill, Em.to_pdf]
  norm_num [glyphOps, glyphAdvanceAdj, glyphBytes]
  simp

/-- Claim C3 (counterexample): with the scenario's inputs — font-native
advances 600 and 550 PDF units, intended advances 600 and 600 — the content
stream contains no positioning adjustment at all and a single show-string
operator covering both glyphs, contradicting the claimed
show(05)/adjust(-50)/show(06) shape. -/
theorem c3_scenario_counterexample :
    adjustOps (write_page (envC3 (fun n => n)) (frameC3 12 ⟨0, 0, 0, 255⟩)) = []
    ∧ showOps (write_page (envC3 (fun n => n)) (frameC3 12 ⟨0, 0, 0, 255⟩))
      = [Op.showStr [0, 5, 0, 6]] := by
  rw [c3_eval]
  simp [adjustOps, showOps]

/-- Claim C3 as amended: for the scenario's frame the content stream is exactly
begin-text, one fill-color operator, one font-select operator, one text-matrix
operator at `(10, 80)`, a single show-string operator with bytes
`00 05 00 06`, and end-text; no positioning adjustment is emitted (glyph 6's
50-unit advance deficit is still pending when the run ends and is dropped). -/
theorem c3_scenario_amended (fm : Nat → Nat) (s : ℚ) (c : RgbaColor) :
    write_page (envC3 fm) (frameC3 s c) =
      [Op.beginText,
       Op.setFillRgb ((c.r : ℚ) / 255) ((c.g : ℚ) / 255) ((c.b : ℚ) / 255),
       Op.setFont (fm 0) s,
       Op.setTextMatrix 1 0 0 1 10 80,
       Op.showStr [0, 5, 0, 6],
       Op.endText]
    ∧ setFontOps (write_page (envC3 fm) (frameC3 s c)) = [Op.setFont (fm 0) s]
    ∧ textMatrixOps (write_page (envC3 fm) (frameC3 s c))
      = [Op.setTextMatrix 1 0 0 1 10 80]
    ∧ showOps (write_page (envC3 fm) (frameC3 s c)) = [Op.showStr [0, 5, 0, 6]]
    ∧ adjustOps (write_page (envC3 fm) (frameC3 s c)) = [] := by
  rw [c3_eval]
  refine ⟨rfl, ?_, ?_, ?_, ?_⟩ <;> simp [setFontOps, textMatrixOps, showOps, adjustOps]

/-- Claim C4 (counterexample): codepoints 65 then 66 both map to glyph 7; the
walk finds 65 first, but the emitted mapping records 66 — `BTreeMap::insert`
overwrites, so the **last** codepoint found wins, not the first. -/
theorem c4_cmap_counterexample :
    cmapHits faceC4 glyphsC4 = [(7, 65), (7, 66)]
    ∧ mappingOfFace faceC4 glyphsC4 = [(7, 66)]
    ∧ (7, 65) ∉ mappingOfFace faceC4 glyphsC4 := by decide

theorem alookup_btreeInsert_self (g c : Nat) (m : List (Nat × Nat)) :
    alookup (btreeInsert g c m) g = some c := by
  induction m with
  | nil => simp [btreeInsert, alookup]
  | cons p rest ih =>
    obtain ⟨g', c'⟩ := p
    by_cases h1 : g < g'
    · simp [btreeInsert, h1, alookup]
    · by_cases h2 : g = g'
      · simp [btreeInsert, h1, h2, alookup]
      · simp [btreeInsert, h1, h2, alookup, ih]

theorem alookup_btreeInsert_ne (g c : Nat) (m : List (Nat × Nat)) (k : Nat)
    (hk : k ≠ g) : alookup (btreeInsert g c m) k = alookup m k := by
  induction m with
  | nil => simp [btreeInsert, alookup, hk]
  | cons p rest ih =>
    obtain ⟨g', c'⟩ := p
    by_cases h1 : g < g'
    · simp [btreeInsert, h1, alookup, hk]
    · by_cases h2 : g = g'
      · subst h2
        simp [btreeInsert, h1, alookup, hk]
      · by_cases h3 : k = g'
        · simp [btreeInsert, h1, h2, alookup, h3]
        · simp [btreeInsert, h1, h2, alookup, h3, ih]

theorem mem_btreeInsert {g c : Nat} {m : List (Nat × Nat)} {p : Nat × Nat}
    (h : p ∈ btreeInsert g c m) : p = (g, c) ∨ p ∈ m := by
  induction m with
  | nil => simp [btreeInsert] at h; simp [h]
  | cons q rest ih =>
    obtain ⟨g', c'⟩ := q
    by_cases h1 : g < g'
    · simp only [btreeInsert, if_pos h1, List.mem_cons] at h
      rcases h with h | h | h
      · exact Or.inl h
      · exact Or.inr (List.mem_cons.mpr (Or.inl h))
      · exact Or.inr (List.mem_cons.mpr (Or.inr h))
    · by_cases h2 : g = g'
      · simp only [btreeInsert, if_neg h1, if_pos h2, List.mem_cons] at h
        rcases h with h | h
        · exact Or.inl h
        · exact Or.inr (List.mem_cons.mpr (Or.inr h))
      · simp only [btreeInsert, if_neg h1, if_neg h2, List.mem_cons] at h
        rcases h with h | h
        · exact Or.inr (List.mem_cons.mpr (Or.inl h))
        · rcases ih h with h' | h'
          · exact Or.inl h'
          · exact Or.inr (List.mem_cons.mpr (Or.inr h'))

theorem head_btreeInsert (g c : Nat) (m : List (Nat × Nat)) (k : Nat)
    (hk : (keysOf (btreeInsert g c m)).head? = some k) :
    k = g ∨ (keysOf m).head? = some k := by
  cases m with
  | nil =>
    simp [btreeInsert, keysOf] at hk
    exact Or.inl hk.symm
  | cons p rest =>
    obtain ⟨g', c'⟩ := p
    by_cases h1 : g < g'
    · simp only [btreeInsert, if_pos h1, keysOf, List.map_cons, List.head?_cons,
        Option.some.injEq] at hk
      exact Or.inl hk.symm
    · by_cases h2 : g = g'
      · simp only [btreeInsert, if_neg h1, if_pos h2, keysOf, List.map_cons,
          List.head?_cons, Option.some.injEq] at hk
        exact Or.inl hk.symm
      · simp only [btreeInsert, if_neg h1, if_neg h2, keysOf, List.map_cons,
          List.head?_cons, Option.some.injEq] at hk
        simp only [keysOf, List.map_cons, List.head?_cons, Option.some.injEq]
        exact Or.inr hk

theorem chain'_btreeInsert (g c : Nat) :
    ∀ m : List (Nat × Nat), List.Chain' (· < ·) (keysOf m) →
      List.Chain' (· < ·) (keysOf (btreeInsert g c m))
  | [], _ => by simp [btreeInsert, keysOf]
  | (g', c') :: rest, h => by
    simp only [keysOf, List.map_cons] at h
    by_cases h1 : g < g'
    · simp only [btreeInsert, if_pos h1, keysOf, List.map_cons]
      rw [List.chain'_cons]
      exact ⟨h1, h⟩
    · by_cases h2 : g = g'
      · subst h2
        simp only [btreeInsert, if_neg h1, if_pos rfl, keysOf, List.map_cons]
        exact h
      · have h3 : g' < g := by omega
        simp only [btreeInsert, if_neg h1, if_neg h2, keysOf, List.map_cons]
        rw [List.chain'_cons'] at h ⊢
        refine ⟨?_, chain'_btreeInsert g c rest h.2⟩
        intro k hk
        rcases head_btreeInsert g c rest k hk with hg | hmem
        · omega
        · exact h.1 k hmem

theorem insertHit_eq_hitOf (face : TtfFace) (gl : Nat → Bool)
    (m : List (Nat × Nat)) (n : Nat) :
    insertHit face gl m n =
      match hitOf face gl n with
      | some gc => insPair m gc
      | none => m := by
  cases hc : charFromU32 n with
  | none => simp [insertHit, hitOf, hc]
  | some c =>
    cases hg : face.glyph_index c with
    | none => simp [insertHit, hitOf, hc, hg]
    | some g =>
      by_cases hgl : gl g
      · simp [insertHit, hitOf, hc, hg, hgl, insPair]
      · simp [insertHit, hitOf, hc, hg, hgl]

theorem foldl_insertHit (face : TtfFace) (gl : Nat → Bool) (ns : List Nat) :
    ∀ m, ns.foldl (insertHit face gl) m
      = (ns.filterMap (hitOf face gl)).foldl insPair m := by
  induction ns with
  | nil => intro m; rfl
  | cons n t ih =>
    intro m
    rw [List.foldl_cons, ih, insertHit_eq_hitOf]
    cases h : hitOf face gl n with
    | some gc => simp [List.filterMap_cons, h]
    | none => simp [List.filterMap_cons, h]

theorem mappingOfFace_eq_fold (face : TtfFace) (gl : Nat → Bool) :
    mappingOfFace face gl = (cmapHits face gl).foldl insPair [] := by
  rw [mappingOfFace, cmapHits]
  generalize hm : ([] : List (Nat × Nat)) = m
  clear hm
  induction face.subtables generalizing m with
  | nil => rfl
  | cons st t ih =>
    by_cases hu : st.is_unicode
    · simp only [List.foldl_cons, List.filter_cons, hu, if_pos, List.map_cons,
        List.flatten_cons, List.foldl_append]
      rw [subtableFold, if_pos hu, foldl_insertHit, ih]
    · simp only [List.foldl_cons, List.filter_cons, hu]
      rw [subtableFold, if_neg hu, ih]
      simp [hu]

theorem alookup_foldl_insPair (hits : List (Nat × Nat)) :
    ∀ (m : List (Nat × Nat)) (g : Nat),
      alookup (hits.foldl insPair m) g =
        match lastFor g hits with
        | some c => some c
        | none => alookup m g := by
  induction hits with
  | nil => intro m g; rfl
  | cons kv t ih =>
    intro m g
    obtain ⟨k, v⟩ := kv
    rw [List.foldl_cons, ih]
    cases hl : lastFor g t with
    | some c => simp [lastFor, hl]
    | none =>
      by_cases hk : k = g
      · subst hk
        simp [lastFor, hl, insPair, alookup_btreeInsert_self]
      · simp [lastFor, hl, hk, insPair,
          alookup_btreeInsert_ne k v m g (fun hgk => hk hgk.symm)]

theorem hitOf_glyphs {face : TtfFace} {gl : Nat → Bool} {n : Nat} {p : Nat × Nat}
    (h : hitOf face gl n = some p) : gl p.1 = true := by
  cases hc : charFromU32 n with
  | none => simp [hitOf, hc] at h
  | some c =>
    cases hg : face.glyph_index c with
    | none => simp [hitOf, hc, hg] at h
    | some g =>
      by_cases hgl : gl g
      · simp [hitOf, hc, hg, hgl] at h
        rw [← h]
        exact hgl
      · simp [hitOf, hc, hg, hgl] at h

theorem mem_cmapHits_glyphs {face : TtfFace} {gl : Nat → Bool} {p : Nat × Nat}
    (h : p ∈ cmapHits face gl) : gl p.1 = true := by
  rw [cmapHits] at h
  rw [List.mem_flatten] at h
  obtain ⟨l, hl, hpl⟩ := h
  rw [List.mem_map] at hl
  obtain ⟨st, hst, rfl⟩ := hl
  rw [List.mem_filterMap] at hpl
  obtain ⟨n, hn, hhit⟩ := hpl
  exact hitOf_glyphs hhit

theorem mem_foldl_insPair {gl : Nat → Bool} (hits : List (Nat × Nat)) :
    ∀ (m : List (Nat × Nat)), (∀ p ∈ m, gl p.1 = true) →
      (∀ p ∈ hits, gl p.1 = true) →
      ∀ p ∈ hits.foldl insPair m, gl p.1 = true := by
  induction hits with
  | nil => intro m hm _ p hp; exact hm p hp
  | cons kv t ih =>
    intro m hm hhits p hp
    rw [List.foldl_cons] at hp
    refine ih (insPair m kv) ?_ (fun q hq => hhits q (List.mem_cons_of_mem _ hq)) p hp
    intro q hq
    rcases mem_btreeInsert hq with rfl | hq'
    · exact hhits (kv.1, kv.2) (by simp)
    · exact hm q hq'

theorem chain'_foldl_insPair (hits : List (Nat × Nat)) :
    ∀ m : List (Nat × Nat), List.Chain' (· < ·) (keysOf m) →
      List.Chain' (· < ·) (keysOf (hits.foldl insPair m)) := by
  induction hits with
  | nil => intro m hm; exact hm
  | cons kv t ih =>
    intro m hm
    rw [List.foldl_cons]
    exact ih _ (chain'_btreeInsert kv.1 kv.2 m hm)

theorem mappingOfFace_unicode_only (face : TtfFace) (gl : Nat → Bool) :
    mappingOfFace face gl
      = mappingOfFace ⟨face.subtables.filter (·.is_unicode), face.glyph_index⟩ gl := by
  show face.subtables.foldl (subtableFold face gl) []
    = (face.subtables.filter (·.is_unicode)).foldl
        (subtableFold ⟨face.subtables.filter (·.is_unicode), face.glyph_index⟩ gl) []
  have hfold : subtableFold ⟨face.subtables.filter (·.is_unicode), face.glyph_index⟩ gl
      = subtableFold face gl := rfl
  rw [hfold]
  generalize ([] : List (Nat × Nat)) = m
  induction face.subtables generalizing m with
  | nil => rfl
  | cons st t ih =>
    by_cases hu : st.is_unicode
    · simp only [List.foldl_cons, List.filter_cons, hu, if_pos]
      exact ih _
    · simp only [List.foldl_cons, List.filter_cons, hu]
      rw [subtableFold, if_neg hu]
      simpa [hu] using ih m

/-- Claim C4 as amended: the emitted glyph-to-codepoint map contains entries
only for glyph ids in the glyph-usage set, is gathered by walking only Unicode
character-mapping subtables, records the **last** codepoint found for each
glyph id (later finds overwrite earlier ones), and is emitted sorted by glyph
id. -/
theorem c4_cmap_amended (face : TtfFace) (gl : Nat → Bool) :
    ((mappingOfFace face gl).all fun p => gl p.1) = true
    ∧ mappingOfFace face gl
      = mappingOfFace ⟨face.subtables.filter (·.is_unicode), face.glyph_index⟩ gl
    ∧ (∀ g, alookup (mappingOfFace face gl) g = lastFor g (cmapHits face gl))
    ∧ List.Chain' (· < ·) (keysOf (mappingOfFace face gl)) := by
  refine ⟨?_, mappingOfFace_unicode_only face gl, ?_, ?_⟩
  · rw [List.all_eq_true]
    intro p hp
    rw [mappingOfFace_eq_fold] at hp
    exact mem_foldl_insPair (cmapHits face gl) [] (by simp)
      (fun q hq => mem_cmapHits_glyphs hq) p hp
  · intro g
    rw [mappingOfFace_eq_fold, alookup_foldl_insPair]
    cases hl : lastFor g (cmapHits face gl) <;> simp [alookup]
  · rw [mappingOfFace_eq_fold]
    exact chain'_foldl_insPair (cmapHits face gl) [] (by simp [keysOf])

theorem write_fill_shape (paint : Paint) :
    ∃ r g b, write_fill paint = Op.setFillRgb r g b := by
  obtain ⟨c⟩ := paint
  obtain ⟨cc⟩ := c
  exact ⟨_, _, _, rfl⟩

theorem write_path_ops (x y : ℚ) (p : Path) :
    ∀ op ∈ write_path x y p,
      op ≠ Op.beginText ∧ op ≠ Op.endText ∧ op ≠ Op.saveState ∧ op ≠ Op.restoreState := by
  intro op hop
  rw [write_path, List.mem_append] at hop
  rcases hop with hop | hop
  · rw [List.mem_map] at hop
    obtain ⟨e, he, rfl⟩ := hop
    cases e <;> simp
  · rw [List.mem_singleton] at hop
    subst hop
    simp

theorem write_stroke_ops (paint : Paint) (thickness : ℚ) :
    ∀ op ∈ write_stroke paint thickness,
      op ≠ Op.beginText ∧ op ≠ Op.endText ∧ op ≠ Op.saveState ∧ op ≠ Op.restoreState := by
  obtain ⟨c⟩ := paint
  obtain ⟨cc⟩ := c
  intro op hop
  simp only [write_stroke, List.mem_cons, List.not_mem_nil, or_false] at hop
  rcases hop with rfl | rfl <;> simp

theorem geometryOps_shape (env : Env) (x y : ℚ) (g : Geometry) (paint : Paint) :
    ∃ body, geometryOps env x y g paint = Op.saveState :: body ++ [Op.restoreState]
      ∧ ∀ op ∈ body,
          op ≠ Op.beginText ∧ op ≠ Op.endText
          ∧ op ≠ Op.saveState ∧ op ≠ Op.restoreState := by
  obtain ⟨r0, g0, b0, hw⟩ := write_fill_shape paint
  cases g with
  | rect s =>
    obtain ⟨w, h⟩ := s
    refine ⟨if w > 0 ∧ h > 0 then [write_fill paint, Op.rectOp x (y - h) w h, Op.fillNonzero]
      else [], rfl, ?_⟩
    intro op hop
    by_cases hc : w > 0 ∧ h > 0
    · rw [if_pos hc] at hop
      simp only [List.mem_cons, List.not_mem_nil, or_false] at hop
      rcases hop with rfl | rfl | rfl <;> simp [hw]
    · rw [if_neg hc] at hop
      simp at hop
  | ellipse s =>
    refine ⟨write_fill paint :: write_path x y (env.ellipse s), rfl, ?_⟩
    intro op hop
    rcases List.mem_cons.mp hop with rfl | hop
    · simp [hw]
    · have h := write_path_ops x y (env.ellipse s) op hop
      exact ⟨h.1, h.2.1, h.2.2.1, h.2.2.2⟩
  | line target thickness =>
    refine ⟨write_stroke paint thickness
      ++ [Op.moveTo x y, Op.lineTo (x + target.x) (y - target.y), Op.strokeOp], rfl, ?_⟩
    intro op hop
    rw [List.mem_append] at hop
    rcases hop with hop | hop
    · exact write_stroke_ops paint thickness op hop
    · simp only [List.mem_cons, List.not_mem_nil, or_false] at hop
      rcases hop with rfl | rfl | rfl <;> simp
  | path p =>
    refine ⟨write_fill paint :: write_path x y p, rfl, ?_⟩
    intro op hop
    rcases List.mem_cons.mp hop with rfl | hop
    · simp [hw]
    · have h := write_path_ops x y p op hop
      exact ⟨h.1, h.2.1, h.2.2.1, h.2.2.2⟩

theorem applyOp_stack (s : GState) (op : Op) (h1 : op ≠ Op.saveState)
    (h2 : op ≠ Op.restoreState) : (applyOp s op).stack = s.stack := by
  cases op <;> first | exact absurd rfl h1 | exact absurd rfl h2 | rfl

theorem runOps_stack (ops : List Op)
    (h : ∀ op ∈ ops, op ≠ Op.saveState ∧ op ≠ Op.restoreState) :
    ∀ s : GState, (runOps s ops).stack = s.stack := by
  induction ops with
  | nil => intro s; rfl
  | cons op t ih =>
    intro s
    have hop := h op (List.mem_cons_self _ _)
    show (runOps (applyOp s op) t).stack = s.stack
    rw [ih (fun o ho => h o (List.mem_cons_of_mem _ ho)),
      applyOp_stack s op hop.1 hop.2]

theorem runOps_sandwich (body : List Op)
    (hb : ∀ op ∈ body, op ≠ Op.saveState ∧ op ≠ Op.restoreState) (s : GState) :
    runOps s (Op.saveState :: body ++ [Op.restoreState]) = s := by
  obtain ⟨f, stc, lw, stk⟩ := s
  have hstack : (runOps ⟨f, stc, lw, (f, stc, lw) :: stk⟩ body).stack
      = (f, stc, lw) :: stk := runOps_stack body hb _
  rw [runOps]
  simp only [List.foldl_cons, List.foldl_append, List.foldl_nil]
  show applyOp (runOps (applyOp ⟨f, stc, lw, stk⟩ Op.saveState) body) Op.restoreState = _
  simp only [applyOp]
  rw [hstack]

/-- Claim C10: every `Geometry` element's operators form a save/restore
bracket with no nested save/restore, running them leaves any graphics state
(fill color, stroke color, line width, stack) exactly unchanged, and the
encoder's tracked page state after a geometry element keeps its tracked fill,
face and size (only the text-mode flag is forced closed). -/
theorem c10_geometry_bracketing (env : Env) (pageH : ℚ) (st : PageState)
    (pos : Point) (x y : ℚ) (g : Geometry) (paint : Paint) :
    (∃ body, geometryOps env x y g paint = Op.saveState :: body ++ [Op.restoreState]
      ∧ ∀ op ∈ body, op ≠ Op.saveState ∧ op ≠ Op.restoreState)
    ∧ (∀ s : GState, runOps s (geometryOps env x y g paint) = s)
    ∧ (writePageStep env pageH st (pos, Element.geometry g paint)).1
      = { st with in_text_state := false } := by
  obtain ⟨body, hshape, hbody⟩ := geometryOps_shape env x y g paint
  have hbody' : ∀ op ∈ body, op ≠ Op.saveState ∧ op ≠ Op.restoreState :=
    fun op hop => ⟨(hbody op hop).2.2.1, (hbody op hop).2.2.2⟩
  refine ⟨⟨body, hshape, hbody'⟩, ?_, ?_⟩
  · intro s
    rw [hshape]
    exact runOps_sandwich body hbody' s
  · obtain ⟨f0, s0, fl0, b0⟩ := st
    cases b0 <;> simp [writePageStep]

/-- Claim C9: a rectangle with non-positive width or height contributes only
the save/restore bracket — no fill-color operator and no geometry primitive —
and the encoder continues with the same tracked state (text mode closed). -/
theorem c9_degenerate_rect (env : Env) (pageH : ℚ) (st : PageState) (pos : Point)
    (w h : ℚ) (paint : Paint) (hd : w ≤ 0 ∨ h ≤ 0) :
    geometryOps env pos.x (pageH - pos.y) (Geometry.rect ⟨w, h⟩) paint
      = [Op.saveState, Op.restoreState]
    ∧ writePageStep env pageH st (pos, Element.geometry (Geometry.rect ⟨w, h⟩) paint)
      = ({ st with in_text_state := false },
         (if st.in_text_state then [Op.endText] else [])
           ++ [Op.saveState, Op.restoreState]) := by
  have hcond : ¬(w > 0 ∧ h > 0) := by
    rcases hd with hd | hd
    · rintro ⟨h1, -⟩; linarith
    · rintro ⟨-, h2⟩; linarith
  have hg : geometryOps env pos.x (pageH - pos.y) (Geometry.rect ⟨w, h⟩) paint
      = [Op.saveState, Op.restoreState] := by
    simp [geometryOps, hcond]
  refine ⟨hg, ?_⟩
  obtain ⟨f0, s0, fl0, b0⟩ := st
  cases b0 <;> simp [writePageStep, hg]

/-- Witness for C9: a rectangle of width `-1` (height `5`) at `(1, 2)` on a
page of height `7`, starting outside text mode, paints nothing. -/
theorem c9_degenerate_rect_witness :
    ((-1 : ℚ) ≤ 0 ∨ (5 : ℚ) ≤ 0)
    ∧ geometryOps env0 (1 : ℚ) ((7 : ℚ) - 2) (Geometry.rect ⟨-1, 5⟩)
        (Paint.color (Color.rgba ⟨0, 0, 0, 255⟩))
      = [Op.saveState, Op.restoreState] :=
  ⟨Or.inl (by norm_num),
   (c9_degenerate_rect env0 7 ⟨none, 0, none, false⟩ ⟨1, 2⟩ (-1) 5
      (Paint.color (Color.rgba ⟨0, 0, 0, 255⟩)) (Or.inl (by norm_num))).1⟩

theorem glyphOps_mem (face : Face) :
    ∀ (gls : List Glyph) (adj : Em) (enc : List Nat) (op : Op),
      op ∈ glyphOps face gls adj enc →
      (∃ s, op = Op.showStr s) ∨ (∃ q, op = Op.adjust q) := by
  intro gls
  induction gls with
  | nil =>
    intro adj enc op hop
    rw [glyphOps] at hop
    by_cases he : enc = []
    · rw [if_pos he] at hop
      simp at hop
    · rw [if_neg he, List.mem_singleton] at hop
      exact Or.inl ⟨enc, hop⟩
  | cons glyph rest ih =>
    intro adj enc op hop
    rw [glyphOps] at hop
    by_cases hz : adj + glyph.x_offset = 0
    · rw [if_pos hz] at hop
      exact ih _ _ op hop
    · rw [if_neg hz] at hop
      simp only [List.mem_append, List.mem_singleton, or_assoc] at hop
      rcases hop with h1 | h1 | h1
      · by_cases he : enc = []
        · rw [if_pos he] at h1
          simp at h1
        · rw [if_neg he, List.mem_singleton] at h1
          exact Or.inl ⟨enc, h1⟩
      · exact Or.inr ⟨_, h1⟩
      · exact ih _ _ op h1

theorem discipline_append (b : Bool) (l r : List Op)
    (hl : ∀ op ∈ l, op ≠ Op.beginText ∧ op ≠ Op.endText ∧ (isPaint op && b) = false) :
    discipline b (l ++ r) = discipline b r := by
  induction l with
  | nil => rfl
  | cons op t ih =>
    have hop := hl op (List.mem_cons_self _ _)
    rw [List.cons_append, discipline, if_neg hop.1, if_neg hop.2.1, hop.2.2,
      ih fun o ho => hl o (List.mem_cons_of_mem _ ho)]
    simp

theorem textOpsList_neutral (env : Env) (st : PageState) (x y : ℚ) (t : TextElem) :
    ∀ op ∈ textOpsList env st x y t,
      op ≠ Op.beginText ∧ op ≠ Op.endText ∧ isPaint op = false := by
  obtain ⟨r0, g0, b0, hw⟩ := write_fill_shape t.fill
  intro op hop
  rw [textOpsList] at hop
  simp only [List.mem_append, or_assoc] at hop
  rcases hop with h1 | h1 | h1 | h1
  · by_cases hc : st.fill ≠ some t.fill
    · rw [if_pos hc, List.mem_singleton] at h1
      subst h1
      simp [hw, isPaint]
    · rw [if_neg hc] at h1
      simp at h1
  · by_cases hc : st.face_id ≠ some t.face_id ∨ t.size ≠ st.size
    · rw [if_pos hc, List.mem_singleton] at h1
      subst h1
      simp [isPaint]
    · rw [if_neg hc] at h1
      simp at h1
  · rw [List.mem_singleton] at h1
    subst h1
    simp [isPaint]
  · rcases glyphOps_mem _ _ _ _ op h1 with ⟨s, rfl⟩ | ⟨q, rfl⟩ <;> simp [isPaint]

theorem geometryOps_not_text (env : Env) (x y : ℚ) (g : Geometry) (paint : Paint) :
    ∀ op ∈ geometryOps env x y g paint, op ≠ Op.beginText ∧ op ≠ Op.endText := by
  obtain ⟨body, hshape, hbody⟩ := geometryOps_shape env x y g paint
  intro op hop
  rw [hshape] at hop
  rcases List.mem_cons.mp hop with rfl | hop
  · simp
  · rcases List.mem_append.mp hop with hop | hop
    · exact ⟨(hbody op hop).1, (hbody op hop).2.1⟩
    · rw [List.mem_singleton] at hop
      subst hop
      simp

theorem imageOps_not_text (env : Env) (x y : ℚ) (id : Nat) (s : Size) :
    ∀ op ∈ imageOps env x y id s, op ≠ Op.beginText ∧ op ≠ Op.endText := by
  intro op hop
  simp only [imageOps, List.mem_cons, List.not_mem_nil, or_false] at hop
  rcases hop with rfl | rfl | rfl | rfl <;> simp

/-- Text mode opened or kept: the text arm's state keeps the tracked flags and
sets fill, face and size. -/
theorem textStateAfter_fields (st : PageState) (t : TextElem) :
    textStateAfter st t
      = { st with fill := some t.fill, face_id := some t.face_id, size := t.size } := by
  obtain ⟨f0, s0, fl0, b0⟩ := st
  rw [textStateAfter]
  split
  · split
    · rfl
    · next h2 =>
      push_neg at h2
      obtain ⟨h2a, h2b⟩ := h2
      simp_all [PageState.mk.injEq]
  · next h1 =>
    push_neg at h1
    split
    · next h2 => simp_all [PageState.mk.injEq]
    · next h2 =>
      push_neg at h2
      obtain ⟨h2a, h2b⟩ := h2
      simp_all [PageState.mk.injEq]

theorem textOpsList_neutral' (env : Env) (st : PageState) (x y : ℚ) (t : TextElem)
    (b : Bool) : ∀ op ∈ textOpsList env st x y t,
      op ≠ Op.beginText ∧ op ≠ Op.endText ∧ (isPaint op && b) = false := by
  intro op hop
  have h := textOpsList_neutral env st x y t op hop
  exact ⟨h.1, h.2.1, by simp [h.2.2]⟩

theorem pageOps_discipline (env : Env) (pageH : ℚ) :
    ∀ (elems : List (Point × Element)) (st : PageState),
      discipline st.in_text_state (pageOps env pageH st elems) = true := by
  intro elems
  induction elems with
  | nil =>
    intro st
    cases hb : st.in_text_state <;> simp [pageOps, hb, discipline]
  | cons pe rest ih =>
    intro st
    obtain ⟨pos, el⟩ := pe
    obtain ⟨f0, s0, fl0, b0⟩ := st
    cases el with
    | text t =>
      cases b0
      · have hstep : writePageStep env pageH ⟨f0, s0, fl0, false⟩ (pos, Element.text t)
            = (textStateAfter ⟨f0, s0, fl0, true⟩ t,
               [Op.beginText]
                 ++ textOpsList env ⟨f0, s0, fl0, true⟩ pos.x (pageH - pos.y) t) := by
          simp [writePageStep]
        rw [pageOps, hstep]
        show discipline false
          ((Op.beginText :: textOpsList env ⟨f0, s0, fl0, true⟩ pos.x (pageH - pos.y) t)
            ++ pageOps env pageH (textStateAfter ⟨f0, s0, fl0, true⟩ t) rest) = true
        rw [List.cons_append, discipline, if_pos rfl,
          discipline_append true _ _ (textOpsList_neutral' env _ _ _ t true)]
        have hst : (textStateAfter ⟨f0, s0, fl0, true⟩ t).in_text_state = true := by
          rw [textStateAfter_fields]
        have hih := ih (textStateAfter ⟨f0, s0, fl0, true⟩ t)
        rw [hst] at hih
        simpa using hih
      · have hstep : writePageStep env pageH ⟨f0, s0, fl0, true⟩ (pos, Element.text t)
            = (textStateAfter ⟨f0, s0, fl0, true⟩ t,
               textOpsList env ⟨f0, s0, fl0, true⟩ pos.x (pageH - pos.y) t) := by
          simp [writePageStep]
        rw [pageOps, hstep]
        show discipline true
          (textOpsList env ⟨f0, s0, fl0, true⟩ pos.x (pageH - pos.y) t
            ++ pageOps env pageH (textStateAfter ⟨f0, s0, fl0, true⟩ t) rest) = true
        rw [discipline_append true _ _ (textOpsList_neutral' env _ _ _ t true)]
        have hst : (textStateAfter ⟨f0, s0, fl0, true⟩ t).in_text_state = true := by
          rw [textStateAfter_fields]
        have hih := ih (textStateAfter ⟨f0, s0, fl0, true⟩ t)
        rw [hst] at hih
        exact hih
    | geometry g paint =>
      cases b0
      · have hstep : writePageStep env pageH ⟨f0, s0, fl0, false⟩
              (pos, Element.geometry g paint)
            = (⟨f0, s0, fl0, false⟩,
               geometryOps env pos.x (pageH - pos.y) g paint) := by
          simp [writePageStep]
        rw [pageOps, hstep]
        show discipline false
          (geometryOps env pos.x (pageH - pos.y) g paint
            ++ pageOps env pageH ⟨f0, s0, fl0, false⟩ rest) = true
        rw [discipline_append false _ _ ?hneutral]
        case hneutral =>
          intro o ho
          have h := geometryOps_not_text env _ _ g paint o ho
          exact ⟨h.1, h.2, by simp⟩
        exact ih ⟨f0, s0, fl0, false⟩
      · have hstep : writePageStep env pageH ⟨f0, s0, fl0, true⟩
              (pos, Element.geometry g paint)
            = (⟨f0, s0, fl0, false⟩,
               [Op.endText] ++ geometryOps env pos.x (pageH - pos.y) g paint) := by
          simp [writePageStep]
        rw [pageOps, hstep]
        show discipline true
          ((Op.endText :: geometryOps env pos.x (pageH - pos.y) g paint)
            ++ pageOps env pageH ⟨f0, s0, fl0, false⟩ rest) = true
        rw [List.cons_append, discipline, if_neg (by simp), if_pos rfl,
          discipline_append false _ _ ?hneutral2]
        case hneutral2 =>
          intro o ho
          have h := geometryOps_not_text env _ _ g paint o ho
          exact ⟨h.1, h.2, by simp⟩
        simpa using ih ⟨f0, s0, fl0, false⟩
    | image id s =>
      cases b0
      · have hstep : writePageStep env pageH ⟨f0, s0, fl0, false⟩
              (pos, Element.image id s)
            = (⟨f0, s0, fl0, false⟩, imageOps env pos.x (pageH - pos.y) id s) := by
          simp [writePageStep]
        rw [pageOps, hstep]
        show discipline false
          (imageOps env pos.x (pageH - pos.y) id s
            ++ pageOps env pageH ⟨f0, s0, fl0, false⟩ rest) = true
        rw [discipline_append false _ _ ?hneutral3]
        case hneutral3 =>
          intro o ho
          have h := imageOps_not_text env _ _ id s o ho
          exact ⟨h.1, h.2, by simp⟩
        exact ih ⟨f0, s0, fl0, false⟩
      · have hstep : writePageStep env pageH ⟨f0, s0, fl0, true⟩
              (pos, Element.image id s)
            = (⟨f0, s0, fl0, false⟩,
               [Op.endText] ++ imageOps env pos.x (pageH - pos.y) id s) := by
          simp [writePageStep]
        rw [pageOps, hstep]
        show discipline true
          ((Op.endText :: imageOps env pos.x (pageH - pos.y) id s)
            ++ pageOps env pageH ⟨f0, s0, fl0, false⟩ rest) = true
        rw [List.cons_append, discipline, if_neg (by simp), if_pos rfl,
          discipline_append false _ _ ?hneutral4]
        case hneutral4 =>
          intro o ho
          have h := imageOps_not_text env _ _ id s o ho
          exact ⟨h.1, h.2, by simp⟩
        simpa using ih ⟨f0, s0, fl0, false⟩
    | link href s =>
      have hstep : writePageStep env pageH ⟨f0, s0, fl0, b0⟩ (pos, Element.link href s)
          = (⟨f0, s0, fl0, b0⟩, []) := by
        simp [writePageStep]
      rw [pageOps, hstep]
      show discipline b0 (pageOps env pageH ⟨f0, s0, fl0, b0⟩ rest) = true
      exact ih ⟨f0, s0, fl0, b0⟩

/-- Claim C7: text-mode discipline — in every generated content stream,
`BT` is only emitted with text mode closed, `ET` only with it open, painting
operators of `Geometry`/`Image` elements only with it closed, and text mode is
closed at the end of the stream. -/
theorem c7_text_mode_discipline (env : Env) (frame : Frame) :
    discipline false (write_page env frame) = true :=
  pageOps_discipline env frame.size.h frame.elements ⟨none, 0, none, false⟩

theorem pageOps_cons (env : Env) (pageH : ℚ) (st : PageState)
    (pe : Point × Element) (rest : List (Point × Element)) :
    pageOps env pageH st (pe :: rest)
      = (writePageStep env pageH st pe).2
        ++ pageOps env pageH (writePageStep env pageH st pe).1 rest := by
  rw [pageOps]

theorem glyphOps_countSetFont (face : Face) (gls : List Glyph) (adj : Em)
    (enc : List Nat) : countSetFont (glyphOps face gls adj enc) = 0 := by
  rw [countSetFont, List.countP_eq_zero]
  intro op hop
  rcases glyphOps_mem face gls adj enc op hop with ⟨s, rfl⟩ | ⟨q, rfl⟩ <;> simp

theorem textStep_state (env : Env) (pageH : ℚ) (st : PageState) (pos : Point)
    (t : TextElem) :
    (writePageStep env pageH st (pos, Element.text t)).1
      = ⟨some t.face_id, t.size, some t.fill, true⟩ := by
  obtain ⟨f0, s0, fl0, b0⟩ := st
  cases b0 <;> simp [writePageStep, textStateAfter_fields]

theorem textStep_countSetFont (env : Env) (pageH : ℚ) (f0 : Option Nat) (s0 : ℚ)
    (fl0 : Option Paint) (b0 : Bool) (pos : Point) (t : TextElem) :
    countSetFont ((writePageStep env pageH ⟨f0, s0, fl0, b0⟩ (pos, Element.text t)).2)
      = if f0 ≠ some t.face_id ∨ t.size ≠ s0 then 1 else 0 := by
  obtain ⟨r0, g0, bb0, hw⟩ := write_fill_shape t.fill
  have hg : countSetFont (glyphOps (env.faces t.face_id) t.glyphs 0 []) = 0 :=
    glyphOps_countSetFont (env.faces t.face_id) t.glyphs 0 []
  rw [countSetFont] at hg
  cases b0 <;>
    by_cases hfl : (fl0 : Option Paint) ≠ some t.fill <;>
    by_cases hc : f0 ≠ some t.face_id ∨ t.size ≠ s0 <;>
    simp [writePageStep, textOpsList, countSetFont, List.countP_append, hfl, hc, hw, hg]

theorem pageOps_countSetFont (env : Env) (pageH : ℚ) (ts : List (Point × TextElem)) :
    ∀ (f : Nat) (s0 : ℚ) (fl : Option Paint) (b : Bool),
      countSetFont (pageOps env pageH ⟨some f, s0, fl, b⟩
          (ts.map fun pt => (pt.1, Element.text pt.2)))
        = countChanges (f, s0) (ts.map fun pt => (pt.2.face_id, pt.2.size)) := by
  induction ts with
  | nil =>
    intro f s0 fl b
    cases b <;> simp [pageOps, countSetFont, countChanges]
  | cons pt rest ih =>
    intro f s0 fl b
    obtain ⟨pos, t⟩ := pt
    rw [List.map_cons, List.map_cons, pageOps_cons, countSetFont, List.countP_append,
      ← countSetFont, ← countSetFont, textStep_countSetFont, textStep_state,
      ih t.face_id t.size (some t.fill) true, countChanges]
    by_cases hc : (t.face_id, t.size) = (f, s0)
    · rw [Prod.mk.injEq] at hc
      simp [hc.1, hc.2, Prod.mk.injEq]
    · rw [Prod.mk.injEq] at hc
      rcases not_and_or.mp hc with h | h
      · have h2 : some f ≠ some t.face_id ∨ t.size ≠ s0 :=
          Or.inl (by simp only [ne_eq, Option.some.injEq]; exact fun he => h he.symm)
        rw [if_pos h2, if_neg (by rw [Prod.mk.injEq]; exact hc)]
      · have h2 : some f ≠ some t.face_id ∨ t.size ≠ s0 := Or.inr h
        rw [if_pos h2, if_neg (by rw [Prod.mk.injEq]; exact hc)]

/-- Claim C8: font-select minimization — for a frame consisting only of Text
elements, the number of font-select operators emitted equals the number of
maximal runs of identical `(face, size)` pairs, and a font-select operator is
emitted only at the start of such a run (when the pair differs from the active
one). -/
theorem c8_font_select_minimization (env : Env) (sz : Size)
    (ts : List (Point × TextElem)) :
    countSetFont (write_page env ⟨sz, ts.map fun pt => (pt.1, Element.text pt.2)⟩)
      = countRuns (ts.map fun pt => (pt.2.face_id, pt.2.size)) := by
  cases ts with
  | nil => simp [write_page, pageOps, countSetFont, countRuns]
  | cons pt rest =>
    obtain ⟨pos, t⟩ := pt
    rw [write_page]
    show countSetFont (pageOps env sz.h ⟨none, 0, none, false⟩
      (((pos, t) :: rest).map fun pt => (pt.1, Element.text pt.2))) = _
    rw [List.map_cons, List.map_cons, pageOps_cons, countSetFont, List.countP_append,
      ← countSetFont, ← countSetFont, textStep_countSetFont, textStep_state,
      pageOps_countSetFont env sz.h rest t.face_id t.size (some t.fill) true,
      countRuns, if_pos (Or.inl (by simp))]

end Pdf
